import Mathlib

/-!
# Verification of the CIGAR helper functions of scikit-bio-tutorials

Shallow embedding of the helper routines defined in
`02-language-model/02-language-model.ipynb`:

* `condense_cigar` — run-length condenser for CIGAR strings,
* `tm_to_cigar` — TM-align state string to CIGAR character mapping,
* `load_vectors` — pairing of loaded vectors with sequence records.

Python strings are modelled as Lean `String`s (lists of characters);
`str(count)` in the source is Lean's `Nat.repr`.  The Python variable
`current_state` is initialised to the empty string and otherwise holds a
single character, so it is modelled as `Option Char` with `none` for `''`.
-/

namespace SkbioTutorial

/-- The characters contributed by Python's `current_state` variable when it is
appended to the output: the empty string for `''`, one character otherwise. -/
def stateStr : Option Char → List Char
  | none => []
  | some c => [c]

/-- The loop of `condense_cigar`, with the final
`condensed_cigar += str(count) + current_state` performed when the input is
exhausted.  Arguments: remaining input, `condensed_cigar`, `current_state`,
`count`. -/
def condenseLoop : List Char → List Char → Option Char → Nat → List Char
  | [], condensed, st, count => condensed ++ (Nat.repr count).data ++ stateStr st
  | c :: rest, condensed, st, count =>
    if some c = st then
      condenseLoop rest condensed st (count + 1)
    else
      condenseLoop rest
        (if count > 0 then condensed ++ (Nat.repr count).data ++ stateStr st
         else condensed)
        (some c) 1

/-- `condense_cigar` from the notebook: convert a full-length CIGAR string to
its condensed (run-length encoded) form, e.g. `MMMIIII` becomes `3M4I`. -/
def condense_cigar (cigar_str : String) : String :=
  ⟨condenseLoop cigar_str.data [] none 0⟩

/-- The characters appended to `cigar` for one input character of
`tm_to_cigar`: `:` contributes `M`, `1` contributes `I`, `2` contributes `D`,
anything else contributes nothing. -/
def tmChar (state : Char) : List Char :=
  if state = ':' then ['M']
  else if state = '1' then ['I']
  else if state = '2' then ['D']
  else []

/-- `tm_to_cigar` from the notebook: convert a TM-align style alignment string
to a CIGAR string.  The `condensed` keyword parameter is present in the source
but never read by the body. -/
def tm_to_cigar (tm_alignment_string : String) (condensed : Bool) : String :=
  ⟨tm_alignment_string.data.foldl (fun cigar state => cigar ++ tmChar state) []⟩

/-- The `ProteinVector` container from scikit-bio, used here only as an opaque
pairing of a vector with its source sequence. -/
structure ProteinVector (V S : Type) where
  vector : V
  sequence : S
  deriving DecidableEq, Repr

/-- `load_vectors` from the notebook, abstracted over the external archive
read: `np.load(file_path)['embeddings']` yields the list `vectors`, and the
function builds `ProteinVector(vector, sequence)` for every positional pair
produced by `zip(vectors, sequence_list)`. -/
def load_vectors {V S : Type} (vectors : List V) (sequence_list : List S) :
    List (ProteinVector V S) :=
  (vectors.zip sequence_list).map fun p => ⟨p.1, p.2⟩

/-! ## Run-length encoding, rendering and parsing

`runs a k l` is the run-length encoding of `replicate k a ++ l` built the way
the loop of `condense_cigar` builds it; `renderTokens` prints a token list the
way the loop prints it; `parseRun` reads a condensed string back into tokens
(decimal count, then the symbol character); `expandTokens` replaces each
count-symbol token by that many repetitions of the symbol. -/

/-- Run-length encoding of `List.replicate k a ++ l`, current run first. -/
def runs (a : Char) (k : Nat) : List Char → List (Nat × Char)
  | [] => [(k, a)]
  | c :: rest => if c = a then runs a (k + 1) rest else (k, a) :: runs c 1 rest

/-- Print a token list as the condenser does: decimal count, then symbol. -/
def renderTokens (ts : List (Nat × Char)) : List Char :=
  (ts.map fun t => (Nat.repr t.1).data ++ [t.2]).flatten

/-- Parse a condensed CIGAR string into count-symbol tokens: a maximal block
of decimal digits is the count, the following character the symbol.  `acc` is
the value of the digits read so far in the current block. -/
def parseRun : List Char → Nat → List (Nat × Char)
  | [], _ => []
  | c :: rest, acc =>
    if c.isDigit then parseRun rest (acc * 10 + (c.toNat - 48))
    else (acc, c) :: parseRun rest 0

/-- Replace every count-symbol token by `count` repetitions of its symbol. -/
def expandTokens : List (Nat × Char) → List Char
  | [] => []
  | t :: rest => List.replicate t.1 t.2 ++ expandTokens rest

/-- Expansion of a condensed CIGAR string: parse it into count-symbol tokens
and replace each token by that many repetitions of its symbol. -/
def expand (s : String) : String :=
  ⟨expandTokens (parseRun s.data 0)⟩

/-- Decimal rendering of a natural number, most significant digit first. -/
def myDigits (n : Nat) : List Char :=
  if n < 10 then [Nat.digitChar n]
  else myDigits (n / 10) ++ [Nat.digitChar (n % 10)]
  decreasing_by exact Nat.div_lt_self (by omega) (by omega)

/-! ## Decimal rendering: `Nat.repr` produces `myDigits` -/

lemma digitChar_isDigit {n : Nat} (h : n < 10) : (Nat.digitChar n).isDigit = true := by
  interval_cases n <;> decide

lemma digitChar_val {n : Nat} (h : n < 10) : (Nat.digitChar n).toNat - 48 = n := by
  interval_cases n <;> decide

lemma toDigitsCore_eq_myDigits :
    ∀ (f n : Nat) (l : List Char), n < 10 ^ f → 0 < f →
      Nat.toDigitsCore 10 f n l = myDigits n ++ l := by
  intro f
  induction f with
  | zero => intro n l _ hf; omega
  | succ f ih =>
    intro n l hn _
    by_cases h10 : n < 10
    · have hdiv : n / 10 = 0 := Nat.div_eq_of_lt h10
      have hmod : n % 10 = n := Nat.mod_eq_of_lt h10
      simp only [Nat.toDigitsCore, hdiv, hmod, if_pos]
      rw [myDigits]
      simp [h10]
    · have hdiv : n / 10 ≠ 0 := by omega
      have hf : 0 < f := by
        by_contra hc
        have hf0 : f = 0 := by omega
        subst hf0
        have h1 : (10 : Nat) ^ (0 + 1) = 10 := by norm_num
        omega
      have hlt : n / 10 < 10 ^ f := by
        rw [Nat.div_lt_iff_lt_mul (by omega)]
        calc n < 10 ^ (f + 1) := hn
          _ = 10 ^ f * 10 := by rw [Nat.pow_succ]
      simp only [Nat.toDigitsCore, if_neg hdiv]
      rw [ih (n / 10) (Nat.digitChar (n % 10) :: l) hlt hf]
      have hexp : myDigits n = myDigits (n / 10) ++ [Nat.digitChar (n % 10)] := by
        rw [myDigits]
        simp [h10]
      rw [hexp, List.append_assoc, List.singleton_append]

lemma repr_data (n : Nat) : (Nat.repr n).data = myDigits n := by
  have hlt : n < 10 ^ (n + 1) := by
    calc n < 2 ^ n := Nat.lt_two_pow n
      _ ≤ 10 ^ n := Nat.pow_le_pow_left (by omega) n
      _ ≤ 10 ^ (n + 1) := Nat.pow_le_pow_right (by omega) (by omega)
  rw [Nat.repr, Nat.toDigits,
    toDigitsCore_eq_myDigits (n + 1) n [] hlt (by omega)]
  simp [List.asString]

lemma myDigits_isDigit (n : Nat) : ∀ c ∈ myDigits n, c.isDigit = true := by
  induction n using Nat.strong_induction_on with
  | _ n ih =>
    rw [myDigits]
    by_cases h : n < 10
    · simp only [if_pos h, List.mem_singleton]
      rintro c rfl
      exact digitChar_isDigit h
    · simp only [if_neg h, List.mem_append, List.mem_singleton]
      rintro c (hc | rfl)
      · exact ih (n / 10) (Nat.div_lt_self (by omega) (by omega)) c hc
      · exact digitChar_isDigit (Nat.mod_lt _ (by omega))

lemma parseRun_myDigits (n : Nat) :
    ∀ (l : List Char) (acc : Nat),
      parseRun (myDigits n ++ l) acc =
        parseRun l (acc * 10 ^ (myDigits n).length + n) := by
  induction n using Nat.strong_induction_on with
  | _ n ih =>
    intro l acc
    by_cases h : n < 10
    · rw [myDigits]
      simp only [if_pos h, List.singleton_append, List.length_singleton]
      rw [parseRun]
      simp [digitChar_isDigit h, digitChar_val h]
    · rw [myDigits]
      simp only [if_neg h, List.append_assoc, List.singleton_append,
        List.length_append, List.length_singleton]
      rw [ih (n / 10) (Nat.div_lt_self (by omega) (by omega))]
      rw [parseRun]
      have hmod : n % 10 < 10 := Nat.mod_lt _ (by omega)
      simp only [digitChar_isDigit hmod, if_pos, digitChar_val hmod]
      congr 1
      have hp : 10 ^ ((myDigits (n / 10)).length + 1) =
          10 ^ (myDigits (n / 10)).length * 10 := by rw [Nat.pow_succ]
      rw [hp]
      have := Nat.div_add_mod n 10
      ring_nf
      omega

lemma parseRun_repr (n : Nat) (c : Char) (hc : c.isDigit = false)
    (l : List Char) :
    parseRun ((Nat.repr n).data ++ c :: l) 0 = (n, c) :: parseRun l 0 := by
  rw [repr_data, parseRun_myDigits]
  rw [parseRun]
  simp [hc]

lemma parseRun_renderTokens :
    ∀ ts : List (Nat × Char), (∀ t ∈ ts, t.2.isDigit = false) →
      parseRun (renderTokens ts) 0 = ts := by
  intro ts
  induction ts with
  | nil => intro _; simp [renderTokens, parseRun]
  | cons t rest ih =>
    intro h
    have ht : t.2.isDigit = false := h t (List.mem_cons_self t rest)
    have hrest : ∀ u ∈ rest, u.2.isDigit = false := fun u hu =>
      h u (List.mem_cons_of_mem t hu)
    show parseRun (((Nat.repr t.1).data ++ [t.2]) ++ renderTokens rest) 0 = _
    rw [List.append_assoc, List.singleton_append, parseRun_repr _ _ ht,
      ih hrest]

/-! ## The condenser loop produces the rendered run-length encoding -/

lemma condenseLoop_runs :
    ∀ (l condensed : List Char) (a : Char) (k : Nat), 0 < k →
      condenseLoop l condensed (some a) k =
        condensed ++ renderTokens (runs a k l) := by
  intro l
  induction l with
  | nil =>
    intro condensed a k _
    simp [condenseLoop, runs, renderTokens, stateStr]
  | cons c rest ih =>
    intro condensed a k hk
    rw [condenseLoop]
    by_cases h : c = a
    · subst h
      rw [if_pos rfl, ih condensed c (k + 1) (by omega), runs, if_pos rfl]
    · rw [if_neg (by simp [h]), if_pos hk,
        ih (condensed ++ (Nat.repr k).data ++ stateStr (some a)) c 1 (by omega),
        runs, if_neg h]
      show condensed ++ (Nat.repr k).data ++ [a] ++ renderTokens (runs c 1 rest) = _
      simp [renderTokens, List.append_assoc]

lemma condense_cigar_cons (c : Char) (rest : List Char) :
    (condense_cigar ⟨c :: rest⟩).data = renderTokens (runs c 1 rest) := by
  show condenseLoop (c :: rest) [] none 0 = _
  rw [condenseLoop, if_neg (by simp)]
  simp only [gt_iff_lt, Nat.lt_irrefl, if_false]
  rw [condenseLoop_runs rest [] c 1 (by omega)]
  simp

/-! ## Properties of the run-length encoding `runs` -/

lemma expandTokens_runs :
    ∀ (l : List Char) (a : Char) (k : Nat),
      expandTokens (runs a k l) = List.replicate k a ++ l := by
  intro l
  induction l with
  | nil => intro a k; simp [runs, expandTokens]
  | cons c rest ih =>
    intro a k
    rw [runs]
    by_cases h : c = a
    · subst h
      rw [if_pos rfl, ih, List.replicate_succ']
      simp
    · rw [if_neg h, expandTokens, ih]
      simp

lemma runs_sym_mem :
    ∀ (l : List Char) (a : Char) (k : Nat) (t : Nat × Char),
      t ∈ runs a k l → t.2 = a ∨ t.2 ∈ l := by
  intro l
  induction l with
  | nil =>
    intro a k t ht
    simp [runs] at ht
    simp [ht]
  | cons c rest ih =>
    intro a k t ht
    rw [runs] at ht
    by_cases h : c = a
    · rw [if_pos h] at ht
      rcases ih a (k + 1) t ht with h1 | h1
      · exact Or.inl h1
      · exact Or.inr (List.mem_cons_of_mem c h1)
    · rw [if_neg h] at ht
      rcases List.mem_cons.mp ht with h1 | h1
      · subst h1; exact Or.inl rfl
      · rcases ih c 1 t h1 with h2 | h2
        · exact Or.inr (h2 ▸ List.mem_cons_self c rest)
        · exact Or.inr (List.mem_cons_of_mem c h2)

lemma runs_count_pos :
    ∀ (l : List Char) (a : Char) (k : Nat), 0 < k →
      ∀ t ∈ runs a k l, 1 ≤ t.1 := by
  intro l
  induction l with
  | nil =>
    intro a k hk t ht
    simp [runs] at ht
    simp [ht]
    omega
  | cons c rest ih =>
    intro a k hk t ht
    rw [runs] at ht
    by_cases h : c = a
    · rw [if_pos h] at ht
      exact ih a (k + 1) (by omega) t ht
    · rw [if_neg h] at ht
      rcases List.mem_cons.mp ht with h1 | h1
      · subst h1; simpa using hk
      · exact ih c 1 (by omega) t h1

lemma runs_head_sym :
    ∀ (l : List Char) (a : Char) (k : Nat),
      ∃ m ts, runs a k l = (m, a) :: ts := by
  intro l
  induction l with
  | nil => intro a k; exact ⟨k, [], rfl⟩
  | cons c rest ih =>
    intro a k
    rw [runs]
    by_cases h : c = a
    · rw [if_pos h]
      subst h
      exact ih c (k + 1)
    · rw [if_neg h]
      exact ⟨k, runs c 1 rest, rfl⟩

lemma runs_chain :
    ∀ (l : List Char) (a : Char) (k : Nat),
      List.Chain' (fun p q : Nat × Char => p.2 ≠ q.2) (runs a k l) := by
  intro l
  induction l with
  | nil => intro a k; simp [runs]
  | cons c rest ih =>
    intro a k
    rw [runs]
    by_cases h : c = a
    · rw [if_pos h]; exact ih a (k + 1)
    · rw [if_neg h]
      obtain ⟨m, ts, hts⟩ := runs_head_sym rest c 1
      rw [hts]
      refine List.chain'_cons.mpr ⟨?_, hts ▸ ih c 1⟩
      simpa using fun hne => h hne.symm

lemma runs_sum :
    ∀ (l : List Char) (a : Char) (k : Nat),
      ((runs a k l).map Prod.fst).sum = k + l.length := by
  intro l
  induction l with
  | nil => intro a k; simp [runs]
  | cons c rest ih =>
    intro a k
    rw [runs]
    by_cases h : c = a
    · rw [if_pos h, ih]
      simp
      omega
    · rw [if_neg h]
      simp [ih]
      omega

/-! ## `tm_to_cigar` as a character-wise concatenation -/

/-- The per-character contributions of `tm_to_cigar`, concatenated in input
order. -/
def tmList : List Char → List Char
  | [] => []
  | c :: rest => tmChar c ++ tmList rest

/-- The single-character image claimed by the spec for recognized characters:
`:` goes to `M`, `1` to `I`, `2` to `D`. -/
def tmMap (c : Char) : Char :=
  if c = ':' then 'M' else if c = '1' then 'I' else 'D'

/-- The recognized input characters of `tm_to_cigar`. -/
def recognized (c : Char) : Bool :=
  c = ':' || c = '1' || c = '2'

lemma foldl_tmChar :
    ∀ (l acc : List Char),
      l.foldl (fun cigar state => cigar ++ tmChar state) acc = acc ++ tmList l := by
  intro l
  induction l with
  | nil => intro acc; simp [tmList]
  | cons c rest ih =>
    intro acc
    rw [List.foldl_cons, ih, tmList, List.append_assoc]

lemma tm_to_cigar_data (s : String) (b : Bool) :
    (tm_to_cigar s b).data = tmList s.data := by
  show (s.data.foldl (fun cigar state => cigar ++ tmChar state) []) = _
  rw [foldl_tmChar]
  simp

lemma tmChar_eq_of_recognized {c : Char} (h : c = ':' ∨ c = '1' ∨ c = '2') :
    tmChar c = [tmMap c] := by
  rcases h with rfl | rfl | rfl <;> decide

lemma tmChar_eq_nil {c : Char} (h : recognized c = false) : tmChar c = [] := by
  rw [tmChar]
  rw [recognized] at h
  simp only [Bool.or_eq_false_iff, decide_eq_false_iff_not] at h
  rw [if_neg h.1.1, if_neg h.1.2, if_neg h.2]

lemma tmList_map (l : List Char) (h : ∀ c ∈ l, c = ':' ∨ c = '1' ∨ c = '2') :
    tmList l = l.map tmMap := by
  induction l with
  | nil => simp [tmList]
  | cons c rest ih =>
    rw [tmList, tmChar_eq_of_recognized (h c (List.mem_cons_self c rest)),
      List.map_cons, List.singleton_append,
      ih fun d hd => h d (List.mem_cons_of_mem c hd)]

lemma tmList_filter (l : List Char) :
    tmList (l.filter recognized) = tmList l := by
  induction l with
  | nil => simp
  | cons c rest ih =>
    by_cases h : recognized c = true
    · rw [List.filter_cons_of_pos h, tmList, tmList, ih]
    · rw [List.filter_cons_of_neg (by simpa using h), tmList,
        tmChar_eq_nil (by simpa using h), List.nil_append, ih]

lemma tmList_append (l1 l2 : List Char) :
    tmList (l1 ++ l2) = tmList l1 ++ tmList l2 := by
  induction l1 with
  | nil => simp [tmList]
  | cons c rest ih =>
    rw [List.cons_append, tmList, tmList, ih, List.append_assoc]

lemma string_mk_append (a b : List Char) :
    (⟨a⟩ ++ ⟨b⟩ : String) = ⟨a ++ b⟩ := rfl

/-- Characters of the CIGAR alphabet `{M, I, D}` are not decimal digits. -/
lemma mid_not_digit {x : Char} (h : x = 'M' ∨ x = 'I' ∨ x = 'D') :
    x.isDigit = false := by
  rcases h with rfl | rfl | rfl <;> decide

/-! ## The claims -/

/-- C1: for every non-empty string over the alphabet `{M, I, D}`, expanding
the output of `condense_cigar` (replacing each count-symbol token by that many
repetitions of its symbol) reconstructs the original input string exactly. -/
theorem claim_C1_condense_expand_roundtrip (s : String) (hne : s ≠ "")
    (halpha : ∀ c ∈ s.data, c = 'M' ∨ c = 'I' ∨ c = 'D') :
    expand (condense_cigar s) = s := by
  cases s with
  | mk l =>
    cases l with
    | nil => exact absurd (by decide) hne
    | cons c rest =>
      have hsym : ∀ t ∈ runs c 1 rest, t.2.isDigit = false := by
        intro t ht
        rcases runs_sym_mem rest c 1 t ht with h1 | h1
        · exact mid_not_digit (h1 ▸ halpha c (List.mem_cons_self c rest))
        · exact mid_not_digit (halpha t.2 (List.mem_cons_of_mem c h1))
      calc expand (condense_cigar ⟨c :: rest⟩)
          = ⟨expandTokens (parseRun (condense_cigar ⟨c :: rest⟩).data 0)⟩ := rfl
        _ = ⟨expandTokens (parseRun (renderTokens (runs c 1 rest)) 0)⟩ := by
            rw [condense_cigar_cons]
        _ = ⟨expandTokens (runs c 1 rest)⟩ := by
            rw [parseRun_renderTokens _ hsym]
        _ = ⟨List.replicate 1 c ++ rest⟩ := by rw [expandTokens_runs]
        _ = ⟨c :: rest⟩ := by simp

/-- Witness for C1 at the concrete input `"MMIID"`. -/
theorem claim_C1_witness :
    ("MMIID" : String) ≠ "" ∧
      (∀ c ∈ ("MMIID" : String).data, c = 'M' ∨ c = 'I' ∨ c = 'D') ∧
      expand (condense_cigar "MMIID") = "MMIID" :=
  ⟨by decide, by decide,
    claim_C1_condense_expand_roundtrip "MMIID" (by decide) (by decide)⟩

/-- C2: on the empty input, `condense_cigar` yields the single spurious token
rendered from the count `0` (still initialised) and the empty initial state —
the non-empty string `"0"` — rather than the empty string. -/
theorem claim_C2_condense_empty :
    condense_cigar "" = ⟨(Nat.repr 0).data ++ stateStr none⟩ ∧
      condense_cigar "" = "0" ∧ condense_cigar "" ≠ "" := by
  refine ⟨by decide, by decide, by decide⟩

/-- C3: when every character of the input lies in the recognized set
`{':', '1', '2'}`, the output of `tm_to_cigar` is the character-wise image of
the input under the map sending `:` to `M`, `1` to `I` and `2` to `D`, and in
particular the output length equals the input length. -/
theorem claim_C3_tm_to_cigar_mapping (s : String) (b : Bool)
    (h : ∀ c ∈ s.data, c = ':' ∨ c = '1' ∨ c = '2') :
    tmMap ':' = 'M' ∧ tmMap '1' = 'I' ∧ tmMap '2' = 'D' ∧
      (tm_to_cigar s b).data = s.data.map tmMap ∧
      (tm_to_cigar s b).length = s.length := by
  have hd : (tm_to_cigar s b).data = s.data.map tmMap := by
    rw [tm_to_cigar_data, tmList_map s.data h]
  refine ⟨by decide, by decide, by decide, hd, ?_⟩
  show (tm_to_cigar s b).data.length = s.data.length
  rw [hd, List.length_map]

/-- Witness for C3 at the concrete input `":12:"`. -/
theorem claim_C3_witness :
    (∀ c ∈ (":12:" : String).data, c = ':' ∨ c = '1' ∨ c = '2') ∧
      (tm_to_cigar ":12:" false).data = (":12:" : String).data.map tmMap ∧
      (tm_to_cigar ":12:" false).length = (":12:" : String).length :=
  ⟨by decide,
    (claim_C3_tm_to_cigar_mapping ":12:" false (by decide)).2.2.2.1,
    (claim_C3_tm_to_cigar_mapping ":12:" false (by decide)).2.2.2.2⟩

/-- C4: characters outside the recognized set `{':', '1', '2'}` contribute no
output character: `tm_to_cigar` of any string equals `tm_to_cigar` of the
string with unrecognized characters removed. -/
theorem claim_C4_tm_to_cigar_drops_unrecognized (s : String) (b : Bool) :
    tm_to_cigar s b = tm_to_cigar ⟨s.data.filter recognized⟩ b := by
  apply String.ext
  rw [tm_to_cigar_data, tm_to_cigar_data]
  exact (tmList_filter s.data).symm

/-- C5: the concrete input `"MMMIIII"` to `condense_cigar` yields exactly
`"3M4I"`. -/
theorem claim_C5_condense_concrete : condense_cigar "MMMIIII" = "3M4I" := by
  decide

/-- C6: the concrete input `"::::11112222"` to `tm_to_cigar` yields exactly
`"MMMMIIIIDDDD"`, and `condense_cigar` of that result is exactly `"4M4I4D"`. -/
theorem claim_C6_pipeline_concrete :
    tm_to_cigar "::::11112222" false = "MMMMIIIIDDDD" ∧
      condense_cigar (tm_to_cigar "::::11112222" false) = "4M4I4D" := by
  refine ⟨by decide, by decide⟩

/-- C7: `tm_to_cigar` is applied character-wise with no cross-character state:
it sends concatenation to concatenation. -/
theorem claim_C7_tm_to_cigar_append (s t : String) (b : Bool) :
    tm_to_cigar (s ++ t) b = tm_to_cigar s b ++ tm_to_cigar t b := by
  apply String.ext
  rw [String.data_append, tm_to_cigar_data, tm_to_cigar_data,
    tm_to_cigar_data, String.data_append, tmList_append]

/-- C8: `load_vectors` pairs vectors with sequence records by position: the
result has the length of the shorter input, and its `i`-th element carries the
`i`-th vector together with the `i`-th sequence. -/
theorem claim_C8_load_vectors_zip {V S : Type} (vectors : List V)
    (sequence_list : List S) :
    (load_vectors vectors sequence_list).length =
        min vectors.length sequence_list.length ∧
      ∀ (i : Nat) (h1 : i < vectors.length) (h2 : i < sequence_list.length),
        (load_vectors vectors sequence_list).get
            ⟨i, by simp [load_vectors]; omega⟩ =
          ⟨vectors.get ⟨i, h1⟩, sequence_list.get ⟨i, h2⟩⟩ := by
  constructor
  · simp [load_vectors]
  · intro i h1 h2
    simp [load_vectors]

/-- Witness for C8 at concrete lists. -/
theorem claim_C8_witness :
    (load_vectors [10, 20] [7]).length = min 2 1 ∧
      (load_vectors [(10 : Nat), 20] [(7 : Nat)]).get ⟨0, by decide⟩ =
        ⟨[(10 : Nat), 20].get ⟨0, by decide⟩, [(7 : Nat)].get ⟨0, by decide⟩⟩ :=
  ⟨(claim_C8_load_vectors_zip [10, 20] [7]).1,
    (claim_C8_load_vectors_zip [(10 : Nat), 20] [(7 : Nat)]).2 0
      (by decide) (by decide)⟩

/-- C9: the `condensed` keyword parameter of `tm_to_cigar` is never read by
the body, so it has no effect on the result. -/
theorem claim_C9_condensed_no_effect (s : String) :
    tm_to_cigar s true = tm_to_cigar s false := rfl

/-- C10: for every non-empty input, the output of `condense_cigar` is a
sequence of count-symbol tokens (each rendered as the decimal count followed
by the symbol) in which every count is at least `1`, consecutive tokens carry
different symbols, and the counts sum to the length of the input. -/
theorem claim_C10_condense_tokens (s : String) (hne : s ≠ "") :
    ∃ ts : List (Nat × Char),
      (condense_cigar s).data = renderTokens ts ∧
      (∀ t ∈ ts, 1 ≤ t.1) ∧
      List.Chain' (fun p q : Nat × Char => p.2 ≠ q.2) ts ∧
      (ts.map Prod.fst).sum = s.length := by
  cases s with
  | mk l =>
    cases l with
    | nil => exact absurd (by decide) hne
    | cons c rest =>
      refine ⟨runs c 1 rest, condense_cigar_cons c rest,
        runs_count_pos rest c 1 (by omega), runs_chain rest c 1, ?_⟩
      rw [runs_sum]
      show 1 + rest.length = (String.mk (c :: rest)).data.length
      simp only [List.length_cons]
      omega

/-- Witness for C10 at the concrete input `"MMI"`. -/
theorem claim_C10_witness :
    ("MMI" : String) ≠ "" ∧
      ∃ ts : List (Nat × Char),
        (condense_cigar "MMI").data = renderTokens ts ∧
        (∀ t ∈ ts, 1 ≤ t.1) ∧
        List.Chain' (fun p q : Nat × Char => p.2 ≠ q.2) ts ∧
        (ts.map Prod.fst).sum = ("MMI" : String).length :=
  ⟨by decide, claim_C10_condense_tokens "MMI" (by decide)⟩

end SkbioTutorial
